import Mathlib

/-
Verification of the AndroMancer orchestration engine against its
natural-language specification.

The Python sources under src/andromancer are shallowly embedded below.
Conventions of the embedding:
  * Python dict parameter maps become association lists over an
    inductive `PValue` mirroring the JSON-ish values the agent passes
    around; `dict.get` becomes `pget`, Python truthiness becomes
    `PValue.truthy`.
  * A Python coroutine that either returns an `ExecutionResult` or
    raises is modelled by `ActionOutcome`: `ok r` for a normal return
    and `exn msg` for a raised exception whose `str(e)` is `msg`.
  * Python floats are idealised: confidences and similarity scores
    become rationals, and the cosine similarity of the memory store
    (which divides by square-root norms) is modelled over the reals.
  * The two string messages produced by `_validate_action` are kept,
    with quotation punctuation simplified; no theorem depends on the
    exact message text.
-/

namespace Andromancer

/-- Values stored in the parameter maps the agent passes to capabilities.
Composite values (nested dicts and lists) are abstracted to their size,
which is all Python truthiness observes about them. -/
inductive PValue where
  | null
  | bool (b : Bool)
  | int (n : Int)
  | str (s : String)
  | dict (size : Nat)
deriving DecidableEq

/-- A Python `Dict[str, Any]` parameter map. -/
def Params := List (String × PValue)

instance : DecidableEq Params := by
  unfold Params
  infer_instance

/-- Python `params.get(key)`: `none` when the key is absent. -/
def pget (params : Params) (key : String) : Option PValue :=
  (params.find? (fun p => p.1 == key)).map (fun p => p.2)

/-- Python truthiness of a `PValue`. -/
def PValue.truthy : PValue → Bool
  | .null => false
  | .bool b => b
  | .int n => n != 0
  | .str s => s != ""
  | .dict size => size != 0

/-- Python `params.get(key) is not None`. -/
def isSet (v : Option PValue) : Bool :=
  match v with
  | none => false
  | some .null => false
  | some _ => true

/-- Python `bool(params.get(key))`. -/
def optTruthy (v : Option PValue) : Bool :=
  match v with
  | none => false
  | some x => x.truthy

/-- `ExecutionResult` from core/capabilities/base.py.  The `data` payload
is abstracted to an optional parameter map (the UI observation shape the
loop consumes). -/
structure ExecutionResult where
  success : Bool
  data : Option Params := none
  error : Option String := none
  execution_time : Nat := 0
deriving DecidableEq

/-- Outcome of awaiting a capability action coroutine: a normal return,
or a raised exception carrying its `str(e)` text. -/
inductive ActionOutcome where
  | ok (r : ExecutionResult)
  | exn (msg : String)

/-- A registered capability: name, description, risk level, and the
async action, modelled as a function from the parameter map to the
outcome of awaiting it. -/
structure Capability where
  name : String
  description : String := ""
  risk_level : String
  action : Params → ActionOutcome

/-- `CapabilityRegistry`: the catalog dict (modelled as the registration
sequence; lookups take the most recent registration of a name, matching
dict overwrite) plus the optional safety-check callback.  The callback
receives the capability name, the parameters and the context, as in the
source; it is modelled as returning a boolean (the agent installs
`_check_safety`, which always returns `True`). -/
structure CapabilityRegistry where
  capabilities : List Capability := []
  safety_check_callback : Option (String → Params → Params → Bool) := none

/-- `CapabilityRegistry.register`: `self._capabilities[cap.name] = cap`. -/
def CapabilityRegistry.register (r : CapabilityRegistry) (cap : Capability) :
    CapabilityRegistry :=
  { r with capabilities := r.capabilities ++ [cap] }

/-- `CapabilityRegistry.get`: dict lookup by name; the most recent
registration wins, as with dict assignment. -/
def CapabilityRegistry.get (r : CapabilityRegistry) (name : String) :
    Option Capability :=
  r.capabilities.reverse.find? (fun c => c.name == name)

/-- The safety gate of `CapabilityRegistry.execute`: the action is
approved unless the risk level is high or critical, a callback is
installed, and the callback returns false. -/
def CapabilityRegistry.safetyApproves (r : CapabilityRegistry)
    (cap : Capability) (name : String) (params context : Params) : Bool :=
  match r.safety_check_callback with
  | none => true
  | some cb =>
      if cap.risk_level == "high" || cap.risk_level == "critical" then
        cb name params context
      else
        true

/-- `CapabilityRegistry.execute`.  `elapsed` stands for the wall-clock
time measured around the action call.  The function is total: the
`try/except` around the action converts a raised exception into a failed
`ExecutionResult` carrying the exception text, so `execute` itself never
raises. -/
def CapabilityRegistry.execute (r : CapabilityRegistry) (name : String)
    (params : Params) (context : Params := []) (elapsed : Nat := 0) :
    ExecutionResult :=
  match r.get name with
  | none => { success := false, error := some ("Unknown capability: " ++ name) }
  | some cap =>
      if !(r.safetyApproves cap name params context) then
        { success := false, error := some "Safety check failed or rejected" }
      else
        match cap.action params with
        | .ok res => { res with execution_time := elapsed }
        | .exn msg =>
            { success := false, error := some msg, execution_time := elapsed }

/-- One action dict of an action plan (`ActionStep` of the data model):
`{"capability": ..., "params": ..., "expected_outcome": ..., "critical":
..., "depends_on": ...}`. -/
structure Action where
  capability : String
  params : Params := []
  expected_outcome : String := ""
  critical : Bool := false
  depends_on : Option String := none
deriving DecidableEq

/-- Python truthiness of `action.get("depends_on")`: set and non-empty. -/
def Action.dependsOnSet (a : Action) : Bool :=
  match a.depends_on with
  | none => false
  | some s => s != ""

/-- `AndroMancerAgent._validate_action`: local parameter validation
before dispatch.  Returns `some message` when validation fails. -/
def validateAction (a : Action) : Option String :=
  if a.capability == "tap" &&
      !(isSet (pget a.params "x") && isSet (pget a.params "y")) &&
      !(optTruthy (pget a.params "element")) then
    some "Action tap requires either x and y coordinates OR an element dictionary. None provided. Check the UI observation again for coordinates."
  else if a.capability == "type" && !(optTruthy (pget a.params "text")) then
    some "Action type requires text parameter."
  else
    none

/-- The per-action outcome inside `_execute_plan`: a validation failure
yields an immediate failed result without invoking the capability,
otherwise the registry executes the action.  `exec` stands for
`self.registry.execute(a.capability, a.params, context)`. -/
def actionOutcome (exec : Action → ExecutionResult) (a : Action) :
    ExecutionResult :=
  match validateAction a with
  | some e => { success := false, error := some e }
  | none => exec a

/-- Sequential branch of `_execute_plan` (PARALLEL_ACTIONS disabled):
actions run in listed order; after appending a failed result whose
action is flagged critical, the loop breaks. -/
def execPlanSeq (exec : Action → ExecutionResult) :
    List Action → List ExecutionResult
  | [] => []
  | a :: rest =>
      let r := actionOutcome exec a
      if !r.success && a.critical then [r]
      else r :: execPlanSeq exec rest

/-- Parallel branch of `_execute_plan` (PARALLEL_ACTIONS enabled):
independent actions (no truthy depends_on) are dispatched as one
`asyncio.gather` batch — every one of them runs to completion and
contributes its own result, in batch order — and dependent actions then
run sequentially, in listed order. -/
def execPlanPar (exec : Action → ExecutionResult) (actions : List Action) :
    List ExecutionResult :=
  let independent := actions.filter (fun a => !a.dependsOnSet)
  let dependent := actions.filter (fun a => a.dependsOnSet)
  independent.map (actionOutcome exec) ++ dependent.map (actionOutcome exec)

/-- `AndroMancerAgent._execute_plan`, branching on `cfg.PARALLEL_ACTIONS`. -/
def execPlan (parallel : Bool) (exec : Action → ExecutionResult)
    (actions : List Action) : List ExecutionResult :=
  if parallel then execPlanPar exec actions else execPlanSeq exec actions

/-- `SkillResult` from skills/base.py. -/
structure SkillResult where
  actions : List Action
  confidence : ℚ
  can_handle : Bool
  override_llm : Bool := false
  execute_atomic : Bool := true
  suggestion : Option String := none
deriving DecidableEq

/-- A registered skill: its name and its `evaluate` coroutine, which
either returns a `SkillResult` or raises (modelled by `Except`; the
error text is the `str(e)` of the raised exception). -/
structure Skill where
  name : String
  evaluate : String → Params → List (List Action) →
    Except String SkillResult

/-- One iteration of the loop body of `SkillRegistry.check_skills`,
threading the `(best_override, suggestions)` accumulator. -/
def checkSkillsStep (goal : String) (observation : Params)
    (history : List (List Action))
    (acc : Option SkillResult × List String) (skill : Skill) :
    Option SkillResult × List String :=
  match skill.evaluate goal observation history with
  | .error _ => acc
  | .ok result =>
      let best := acc.1
      let suggestions := acc.2
      if result.can_handle then
        let best' :=
          if result.override_llm &&
              (match best with
               | none => true
               | some b => decide (b.confidence < result.confidence)) then
            if decide ((9 : ℚ)/10 < result.confidence) then some result
            else best
          else best
        let suggestions' :=
          match result.suggestion with
          | some s => if s != "" then suggestions ++ [skill.name ++ ": " ++ s]
                      else suggestions
          | none => suggestions
        (best', suggestions')
      else
        (best, suggestions)

/-- `SkillRegistry.check_skills`: evaluates every registered skill (a
raising skill is caught and skipped), keeping at most one override
candidate and collecting suggestion strings. -/
def checkSkills (skills : List Skill) (goal : String) (observation : Params)
    (history : List (List Action)) : Option SkillResult × List String :=
  skills.foldl (checkSkillsStep goal observation history) (none, [])

/-- Spec-side eligibility of an override candidate, including the
`can_handle` gate the code applies: the skill evaluated without raising
to a result with `can_handle`, `override_llm` and confidence above 0.9. -/
def eligibleResults (skills : List Skill) (goal : String)
    (observation : Params) (history : List (List Action)) :
    List SkillResult :=
  skills.filterMap (fun sk =>
    match sk.evaluate goal observation history with
    | .ok r =>
        if r.can_handle && r.override_llm && decide ((9 : ℚ)/10 < r.confidence)
        then some r else none
    | .error _ => none)

/-- One comparison of the override choice: keep the strictly
higher-confidence candidate, ties favouring the one seen first. -/
def overridePick (best : Option SkillResult) (r : SkillResult) :
    Option SkillResult :=
  match best with
  | none => some r
  | some b => if b.confidence < r.confidence then some r else best

/-- Modelled from the spec: the override choice described in section
4.4 — keep the strictly-higher-confidence candidate seen so far, ties
favouring the earlier-registered skill. -/
def specOverrideChoice (candidates : List SkillResult) : Option SkillResult :=
  candidates.foldl overridePick none

/-- Modelled from the spec, amended by the code: the suggestion list of
`check_skills` — one entry per skill whose evaluation returned a result
with `can_handle` and a non-empty suggestion. -/
def specSuggestions (skills : List Skill) (goal : String)
    (observation : Params) (history : List (List Action)) : List String :=
  skills.filterMap (fun sk =>
    match sk.evaluate goal observation history with
    | .ok r =>
        if r.can_handle then
          match r.suggestion with
          | some s => if s != "" then some (sk.name ++ ": " ++ s) else none
          | none => none
        else none
    | .error _ => none)

/-- `Thought` from core/reasoning.py. -/
structure Thought where
  step : Nat
  reasoning : String
  action_plan : List Action
  confidence : ℚ
  observation : Option Params := none
  reflection : Option String := none

/-- The decoded oracle reply consumed by `ReActEngine.reason`: the
reasoning text, the action plan and the confidence, after the `.get`
defaults and the `float(...)` conversion.  An `Except.error` covers
every failure inside the `try` block: transport errors, timeouts,
malformed output and a failing confidence conversion, with the text of
the exception. -/
def OracleReply := Except String (String × List Action × ℚ)

/-- The single read-only re-observation action of the deterministic
fallback plan: `{"capability": "get_ui", "params": {}}`. -/
def getUiAction : Action :=
  { capability := "get_ui", params := [] }

/-- `ReActEngine.reason`: on a successful oracle reply it builds the
thought from the reply; on any failure it falls back deterministically
to a single `get_ui` re-observation with confidence 0.5.  The function
is total — `reason` never raises past its boundary. -/
def reason (oracle : OracleReply) (goal : String) (observation : Params)
    (step : Nat) : Thought :=
  match oracle with
  | .ok (reasoning, plan, confidence) =>
      { step := step, reasoning := reasoning, action_plan := plan,
        confidence := confidence, observation := some observation }
  | .error e =>
      { step := step,
        reasoning :=
          "Error in reasoning: " ++ e ++ ". Falling back to basic observation.",
        action_plan := [getUiAction],
        confidence := 1/2,
        observation := some observation }

/-- `Memory` from core/memory.py.  The embedding is the list of rational
nibble values produced by `_hash_embedding` (or loaded from disk); the
float timestamps are not modelled, and the `access_count`/`last_access`
bookkeeping mutation performed by `retrieve` is elided — no claim below
refers to it. -/
structure Memory where
  id : String := ""
  content : String := ""
  embedding : List ℚ := []
  metadata : Params := []
  access_count : Nat := 0
deriving DecidableEq

/-- Insertion step of a stable descending sort: the inserted element
goes before every element whose key is not strictly greater, so ties
keep the inserted (originally earlier) element first.  This is the
behaviour of Python `list.sort(key=..., reverse=True)`. -/
def insertDesc {α β : Type} [LinearOrder β] (key : α → β) (a : α) :
    List α → List α
  | [] => [a]
  | b :: l => if key a < key b then b :: insertDesc key a l else a :: b :: l

/-- Stable descending sort by key. -/
def sortDesc {α β : Type} [LinearOrder β] (key : α → β) :
    List α → List α
  | [] => []
  | a :: l => insertDesc key a (sortDesc key l)

/-- Insertion step of a stable ascending sort. -/
def insertAsc {α β : Type} [LinearOrder β] (key : α → β) (a : α) :
    List α → List α
  | [] => [a]
  | b :: l => if key b < key a then b :: insertAsc key a l else a :: b :: l

/-- Stable ascending sort by key. -/
def sortAsc {α β : Type} [LinearOrder β] (key : α → β) :
    List α → List α
  | [] => []
  | a :: l => insertAsc key a (sortAsc key l)

/-- `numpy.argsort` over the similarity row, modelled as a stable
ascending sort of the indices by value.  (numpy's default kind is not
guaranteed stable; stability is the deterministic model used here, and
it matches what numpy produces on the small concrete inputs below.) -/
def argsortAsc (sims : List ℚ) : List Nat :=
  (sortAsc (fun p => p.2) sims.enum).map (fun p => p.1)

/-- The index selection of the TF-IDF branch of `MemoryStore.retrieve`:
`similarities.argsort()[::-1][:top_k]`, then the loop keeps only indices
with similarity strictly above zero. -/
def tfidfOrder (sims : List ℚ) (top_k : Nat) : List Nat :=
  (((argsortAsc sims).reverse).take top_k).filter
    (fun i => decide (0 < sims.getD i 0))

/-- TF-IDF branch of `MemoryStore.retrieve`, given the cosine-similarity
row `sims` computed by the (external) vectorizer for the query against
each stored memory, in insertion order. -/
def retrieveTfidf (sims : List ℚ) (top_k : Nat) (memories : List Memory) :
    List Memory :=
  (tfidfOrder sims top_k).filterMap (fun i => memories.get? i)

/-- Hash-fallback branch of `MemoryStore.retrieve`: score every memory,
sort the `(sim, mem)` pairs descending by similarity with Python's
stable sort, and keep the first `top_k`.  `sim` stands for
`_legacy_cosine_similarity(query_vec, mem.embedding)`; it is kept
abstract in the order-theoretic statements and instantiated with
`legacyCos` for the reflexivity claim. -/
def retrieveFallback {α : Type} [LinearOrder α] (sim : Memory → α)
    (top_k : Nat) (memories : List Memory) : List Memory :=
  let scored := memories.map (fun m => (sim m, m))
  let sorted := sortDesc (fun p => p.1) scored
  (sorted.take top_k).map (fun p => p.2)

/-- `MemoryStore.retrieve`.  `tfidf = some sims` models the TF-IDF
strategy being available (sklearn importable) and its computation
succeeding with similarity row `sims`; `none` models sklearn being
absent or the strategy raising, with silent fallback.  The source also
requires more than one stored memory for the TF-IDF branch. -/
def MemoryStore.retrieve {α : Type} [LinearOrder α]
    (tfidf : Option (List ℚ)) (sim : Memory → α) (top_k : Nat)
    (memories : List Memory) : List Memory :=
  if memories.length = 0 then []
  else
    match tfidf with
    | some sims =>
        if 1 < memories.length then retrieveTfidf sims top_k memories
        else retrieveFallback sim top_k memories
    | none => retrieveFallback sim top_k memories

/-- `MemoryStore.store`: appends a new record whose embedding is the
deterministic hash embedding of the content.  `embed` stands for
`_hash_embedding` and `newId` for the md5-derived id; the full-corpus
persist has no observable effect on the corpus list. -/
def MemoryStore.store (embed : String → List ℚ) (newId content : String)
    (metadata : Params) (memories : List Memory) : List Memory :=
  memories ++
    [{ id := newId, content := content, embedding := embed content,
       metadata := metadata }]

/-- The dot product `sum(x*y for x, y in zip(a, b))`. -/
def dotQ (a b : List ℚ) : ℚ :=
  ((a.zip b).map (fun p => p.1 * p.2)).sum

/-- The squared norm `sum(x*x for x in a)`. -/
def sumSq (a : List ℚ) : ℚ :=
  (a.map (fun x => x * x)).sum

open Classical in
/-- `MemoryStore._legacy_cosine_similarity`, idealising floats as reals:
zero for an empty operand, zero when the product of the norms is zero,
and otherwise the dot product divided by the product of the norms. -/
noncomputable def legacyCos (a b : List ℚ) : ℝ :=
  if a = [] ∨ b = [] then 0
  else
    let na : ℝ := Real.sqrt ((sumSq a : ℚ) : ℝ)
    let nb : ℝ := Real.sqrt ((sumSq b : ℚ) : ℝ)
    if na * nb = 0 then 0 else ((dotQ a b : ℚ) : ℝ) / (na * nb)

/-- `MissionStatus` from core/agent.py. -/
inductive MissionStatus where
  | PENDING
  | RUNNING
  | PAUSED
  | COMPLETED
  | FAILED
deriving DecidableEq

/-- The state the `_run_loop` step loop reads and writes: the mission
status and step counters, the local retry counter, and the
`working_memory["last_action_error"]` slot of the reasoning engine.
`backoff_log` records the durations (in seconds) of the exponential
backoff sleeps performed, so the backoff schedule can be stated. -/
structure LoopState where
  status : MissionStatus
  current_step : Nat
  max_steps : Nat
  retry_count : Nat
  backoff_log : List Nat := []
  last_action_error : Option String := none
deriving DecidableEq

/-- The environment of one `while` iteration of `_run_loop`: either the
stop event is observed set at the top of the loop, or the body runs and
its outcome is one of: the observation capability returned a failed
result (raising `RecoverableError`), some unclassified exception
escaped, a skill override executed its action list, or the reasoning
engine produced a thought with the given plan.  `exec` gives the
per-action registry outcome for this step. -/
inductive StepEvent where
  | stopSignal
  | obsFail (err : String)
  | unhandled (err : String)
  | skillStep (actions : List Action) (exec : Action → ExecutionResult)
  | reasonStep (plan : List Action) (exec : Action → ExecutionResult)

/-- The `except RecoverableError` handler: bump the retry counter; past
`max_retries = 3` the mission fails, otherwise sleep `2 ** retry_count`
seconds and retry the same step (`current_step` unchanged). -/
def recoverableUpdate (s : LoopState) : LoopState :=
  let rc := s.retry_count + 1
  if 3 < rc then { s with retry_count := rc, status := .FAILED }
  else { s with retry_count := rc, backoff_log := s.backoff_log ++ [2 ^ rc] }

/-- The end of a successfully completed step: reset the retry counter,
advance the step counter (state is then persisted and the loop paces). -/
def advanceStep (s : LoopState) : LoopState :=
  { s with retry_count := 0, current_step := s.current_step + 1 }

/-- One reflection of the loop over `zip(plan, results)`: a failed
result stores an error note in working memory, a successful one clears
it (`working_memory.pop`). -/
def reflectStep (st : LoopState) (pr : Action × ExecutionResult) : LoopState :=
  if pr.2.success then { st with last_action_error := none }
  else
    { st with
      last_action_error :=
        some ("Action " ++ pr.1.capability ++ " failed: " ++
          (pr.2.error.getD "None")) }

/-- The reflection loop over `zip(plan, results)`. -/
def applyReflections (s : LoopState) (plan : List Action)
    (results : List ExecutionResult) : LoopState :=
  (plan.zip results).foldl reflectStep s

/-- The body of one `_run_loop` iteration, after the stop and max-step
checks, under the outcome described by the event. -/
def iterBody (parallel : Bool) (s : LoopState) (e : StepEvent) : LoopState :=
  match e with
  | .stopSignal => s
  | .obsFail _ => recoverableUpdate s
  | .unhandled _ => { s with status := .FAILED }
  | .skillStep actions exec =>
      let _ := execPlan parallel exec actions
      advanceStep s
  | .reasonStep plan exec =>
      if plan = [] then { s with status := .COMPLETED }
      else
        let results := execPlan parallel exec plan
        advanceStep (applyReflections s plan results)

/-- Whether the stop event was observed set at the top of the loop. -/
def StepEvent.isStop : StepEvent → Bool
  | .stopSignal => true
  | _ => false

/-- `AndroMancerAgent._run_loop`: iterate while the stop event is unset
and the mission is running; a mission at or past its step budget is
completed before the body runs.  The event list supplies the
environment of successive iterations; the loop also stops when it is
exhausted. -/
def runLoop (parallel : Bool) : List StepEvent → LoopState → LoopState
  | [], s => s
  | e :: es, s =>
      if s.status = .RUNNING then
        if e.isStop then s
        else if s.max_steps ≤ s.current_step then
          { s with status := .COMPLETED }
        else runLoop parallel es (iterBody parallel s e)
      else s

/-- `AndroMancerAgent._complete_mission` (status part): any final status
other than FAILED becomes COMPLETED. -/
def completeMission (s : LoopState) : LoopState :=
  if s.status = .FAILED then s else { s with status := .COMPLETED }

/-- A full run: the step loop followed by `_complete_mission`. -/
def runMission (parallel : Bool) (events : List StepEvent) (s : LoopState) :
    LoopState :=
  completeMission (runLoop parallel events s)

/-! Concrete instances used by the witnesses and counterexamples. -/

/-- A capability whose action raises `RuntimeError("boom")` for any
parameter map, as in spec section 8. -/
def boomCapability : Capability :=
  { name := "boom", risk_level := "low", action := fun _ => .exn "boom" }

/-- A registry holding only `boomCapability`, no safety callback. -/
def boomRegistry : CapabilityRegistry :=
  CapabilityRegistry.register {} boomCapability

/-- A skill that returns the same result for every input and never
raises. -/
def constSkill (name : String) (r : SkillResult) : Skill :=
  { name := name, evaluate := fun _ _ _ => .ok r }

/-- Override proposal with confidence 0.95. -/
def resultHigh : SkillResult :=
  { actions := [getUiAction], confidence := 95/100, can_handle := true,
    override_llm := true }

/-- Override proposal with confidence 0.93. -/
def resultLow : SkillResult :=
  { actions := [], confidence := 93/100, can_handle := true,
    override_llm := true }

/-- A second, distinct override proposal with confidence 0.95. -/
def resultHighB : SkillResult :=
  { actions := [], confidence := 95/100, can_handle := true,
    override_llm := true, suggestion := some "b" }

/-- An override proposal with confidence 0.95 whose `can_handle` flag is
false. -/
def resultNoHandle : SkillResult :=
  { actions := [], confidence := 95/100, can_handle := false,
    override_llm := true }

/-- A result carrying a non-empty suggestion but `can_handle = false`. -/
def resultSuggestNoHandle : SkillResult :=
  { actions := [], confidence := 0, can_handle := false,
    suggestion := some "try scrolling" }

/-- A non-critical action with no validation rule attached. -/
def backAction : Action := { capability := "back" }

/-- A critical action with no validation rule attached. -/
def criticalBackAction : Action := { capability := "back", critical := true }

/-- A three-action plan whose middle action is critical and fails under
`failCriticalExec`. -/
def demoPlan : List Action := [backAction, criticalBackAction, backAction]

/-- Two distinct concrete memories. -/
def memA : Memory := { id := "a", content := "x", embedding := [1] }

/-- See `memA`. -/
def memB : Memory := { id := "b", content := "", embedding := [0] }

/-- A loop state for a freshly started running mission with a budget of
five steps. -/
def freshState : LoopState :=
  { status := .RUNNING, current_step := 0, max_steps := 5, retry_count := 0 }

/-- A running loop state whose step counter has reached its budget. -/
def budgetState : LoopState :=
  { status := .RUNNING, current_step := 2, max_steps := 2, retry_count := 0 }

/-- An execution environment in which every action fails. -/
def failExec : Action → ExecutionResult :=
  fun _ => { success := false, error := some "tap failed" }

/-- An execution environment in which every action succeeds. -/
def okExec : Action → ExecutionResult :=
  fun _ => { success := true }

/-- An execution environment failing exactly on critical actions. -/
def failCriticalExec : Action → ExecutionResult :=
  fun a => if a.critical then { success := false, error := some "boom" }
           else { success := true }

/-! Theorems. -/

/-- Claim C1: for every registered capability whose action raises when
invoked, `CapabilityRegistry.execute` returns a failed ExecutionResult
whose error field carries the exception text — and, being a total
function, `execute` itself never raises.  The safety-approval hypothesis
is satisfied by the registry the agent builds (its callback always
approves). -/
theorem capability_exception_contained
    (r : CapabilityRegistry) (name : String) (cap : Capability)
    (params context : Params) (msg : String) (elapsed : Nat)
    (hget : r.get name = some cap)
    (hexn : cap.action params = .exn msg)
    (hsafe : r.safetyApproves cap name params context = true) :
    (r.execute name params context elapsed).success = false ∧
      (r.execute name params context elapsed).error = some msg := by
  unfold CapabilityRegistry.execute
  rw [hget]
  simp [hsafe, hexn]

/-- Witness for C1: a capability raising `RuntimeError("boom")` yields
`ExecutionResult(success=False, error="boom")`. -/
theorem capability_exception_contained_witness :
    (boomRegistry.execute "boom" [] [] 0).success = false ∧
      (boomRegistry.execute "boom" [] [] 0).error = some "boom" :=
  capability_exception_contained boomRegistry "boom" boomCapability [] []
    "boom" 0 (by rfl) (by rfl) (by rfl)

/-- Claim C2: whenever the oracle call inside `ReActEngine.reason` fails
(the `Except.error` case, covering any raise inside the try block),
`reason` returns the deterministic fallback thought whose action plan is
exactly one read-only re-observation action — the `get_ui` capability
with empty params — and, being total, never raises past its boundary. -/
theorem oracle_failure_deterministic_fallback
    (e goal : String) (observation : Params) (step : Nat) :
    (reason (Except.error e) goal observation step).action_plan =
        [getUiAction] ∧
      getUiAction.capability = "get_ui" ∧ getUiAction.params = [] :=
  ⟨rfl, rfl, rfl⟩

theorem checkSkills_fst_fold (goal : String) (obs : Params)
    (hist : List (List Action)) :
    ∀ (skills : List Skill) (best : Option SkillResult) (suggs : List String),
      (skills.foldl (checkSkillsStep goal obs hist) (best, suggs)).1 =
        (eligibleResults skills goal obs hist).foldl overridePick best := by
  intro skills
  induction skills with
  | nil => intro best suggs; simp [eligibleResults]
  | cons sk rest ih =>
      intro best suggs
      simp only [List.foldl_cons, eligibleResults, List.filterMap_cons]
      cases hev : sk.evaluate goal obs hist with
      | error e => simp [checkSkillsStep, hev, ih, eligibleResults]
      | ok r =>
          by_cases hch : r.can_handle
          · by_cases hov : r.override_llm
            · by_cases hth : (9 : ℚ)/10 < r.confidence
              · cases best with
                | none =>
                    simp [checkSkillsStep, hev, hch, hov, hth, ih,
                      eligibleResults, overridePick]
                | some b =>
                    by_cases hcmp : b.confidence < r.confidence
                    · simp [checkSkillsStep, hev, hch, hov, hth, hcmp, ih,
                        eligibleResults, overridePick]
                    · simp [checkSkillsStep, hev, hch, hov, hth, hcmp, ih,
                        eligibleResults, overridePick]
              · cases best with
                | none =>
                    simp [checkSkillsStep, hev, hch, hov, hth, ih,
                      eligibleResults, overridePick]
                | some b =>
                    by_cases hcmp : b.confidence < r.confidence
                    · simp [checkSkillsStep, hev, hch, hov, hth, hcmp, ih,
                        eligibleResults, overridePick]
                    · simp [checkSkillsStep, hev, hch, hov, hth, hcmp, ih,
                        eligibleResults, overridePick]
            · simp [checkSkillsStep, hev, hch, hov, ih, eligibleResults]
          · simp [checkSkillsStep, hev, hch, ih, eligibleResults]

theorem checkSkills_snd_fold (goal : String) (obs : Params)
    (hist : List (List Action)) :
    ∀ (skills : List Skill) (best : Option SkillResult) (suggs : List String),
      (skills.foldl (checkSkillsStep goal obs hist) (best, suggs)).2 =
        suggs ++ specSuggestions skills goal obs hist := by
  intro skills
  induction skills with
  | nil => intro best suggs; simp [specSuggestions]
  | cons sk rest ih =>
      intro best suggs
      simp only [List.foldl_cons, specSuggestions, List.filterMap_cons]
      cases hev : sk.evaluate goal obs hist with
      | error e => simp [checkSkillsStep, hev, ih, specSuggestions]
      | ok r =>
          by_cases hch : r.can_handle
          · cases hsug : r.suggestion with
            | none => simp [checkSkillsStep, hev, hch, hsug, ih, specSuggestions]
            | some s =>
                by_cases hne : s = ""
                · simp [checkSkillsStep, hev, hch, hsug, hne, ih, specSuggestions]
                · simp [checkSkillsStep, hev, hch, hsug, hne, ih, specSuggestions]
          · simp [checkSkillsStep, hev, hch, ih, specSuggestions]

/-- Claim C5 (amended): the override candidate selected by
`check_skills` is the strictly-highest-confidence result among those
with `can_handle = true`, `override_llm = true` and confidence above
0.9 — the `can_handle` gate is the amendment — with ties favouring the
earlier-registered skill; with candidates of confidence 0.95 and 0.93
(in either order) the 0.95 result is selected, and with two tied 0.95
candidates the earlier-registered skill's result is selected. -/
theorem override_selection_amended (skills : List Skill) (goal : String)
    (obs : Params) (hist : List (List Action)) :
    (checkSkills skills goal obs hist).1 =
        specOverrideChoice (eligibleResults skills goal obs hist) ∧
      (checkSkills [constSkill "s1" resultHigh, constSkill "s2" resultLow]
          goal obs hist).1 = some resultHigh ∧
      (checkSkills [constSkill "s1" resultLow, constSkill "s2" resultHigh]
          goal obs hist).1 = some resultHigh ∧
      (checkSkills [constSkill "s1" resultHigh, constSkill "s2" resultHighB]
          goal obs hist).1 = some resultHigh := by
  refine ⟨checkSkills_fst_fold goal obs hist skills none [], ?_, ?_, ?_⟩
  · norm_num [checkSkills, checkSkillsStep, constSkill, resultHigh, resultLow]
  · norm_num [checkSkills, checkSkillsStep, constSkill, resultHigh, resultLow]
  · norm_num [checkSkills, checkSkillsStep, constSkill, resultHigh, resultHighB]

/-- Counterexample to C5 as stated: a result with `override_llm = true`
and confidence 0.95 — a candidate by the claim's own description — is
passed over because its `can_handle` flag is false, and the
lower-confidence 0.93 result is selected instead. -/
theorem override_ignores_can_handle_counterexample :
    (checkSkills [constSkill "s1" resultNoHandle, constSkill "s2" resultLow]
        "" [] []).1 = some resultLow ∧
      resultNoHandle.override_llm = true ∧
      (9 : ℚ)/10 < resultNoHandle.confidence ∧
      resultLow.confidence < resultNoHandle.confidence := by
  refine ⟨?_, rfl, by norm_num [resultNoHandle], by norm_num [resultLow, resultNoHandle]⟩
  norm_num [checkSkills, checkSkillsStep, constSkill, resultNoHandle, resultLow]

/-- Claim C6 (amended): the suggestion list of `check_skills` contains
one entry for every registered skill whose evaluation returned a result
with `can_handle = true` and a non-empty suggestion string — regardless
of override status, but not regardless of the `can_handle` flag, which
is the amendment. -/
theorem suggestion_collection_amended (skills : List Skill) (goal : String)
    (obs : Params) (hist : List (List Action)) :
    (checkSkills skills goal obs hist).2 =
      specSuggestions skills goal obs hist := by
  simpa using checkSkills_snd_fold goal obs hist skills none []

/-- Counterexample to C6 as stated: a skill returning a non-empty
suggestion with `can_handle = false` contributes no entry to the
suggestion list. -/
theorem suggestion_requires_can_handle_counterexample :
    (checkSkills [constSkill "s" resultSuggestNoHandle] "" [] []).2 = [] ∧
      resultSuggestNoHandle.suggestion = some "try scrolling" ∧
      ("try scrolling" : String) ≠ "" := by
  refine ⟨?_, rfl, by decide⟩
  norm_num [checkSkills, checkSkillsStep, constSkill, resultSuggestNoHandle]

theorem execPlanPar_length (exec : Action → ExecutionResult)
    (actions : List Action) :
    (execPlanPar exec actions).length = actions.length := by
  unfold execPlanPar
  simp only [List.length_append, List.length_map]
  induction actions with
  | nil => rfl
  | cons a l ih =>
      cases h : a.dependsOnSet <;> simp [List.filter_cons, h] <;> omega

/-- Claim C7: with parallel execution disabled, actions run strictly
sequentially in listed order — all of them when no critical failure
occurs, and only the prefix up to and including the first failing
critical action otherwise (results of the remaining actions are
absent); with parallel execution enabled, every independent action
(no truthy depends_on) contributes its own result, one failure never
preventing a sibling, and the result list covers the whole plan. -/
theorem plan_execution_protocol (exec : Action → ExecutionResult)
    (actions : List Action) :
    ((∀ a ∈ actions,
        (actionOutcome exec a).success = true ∨ a.critical = false) →
       execPlanSeq exec actions = actions.map (actionOutcome exec)) ∧
    (∀ (pre : List Action) (a : Action) (post : List Action),
       actions = pre ++ a :: post →
       (∀ b ∈ pre,
         (actionOutcome exec b).success = true ∨ b.critical = false) →
       (actionOutcome exec a).success = false → a.critical = true →
       execPlanSeq exec actions = (pre ++ [a]).map (actionOutcome exec)) ∧
    (execPlanPar exec actions).length = actions.length ∧
    (∀ a ∈ actions, a.dependsOnSet = false →
       actionOutcome exec a ∈ execPlanPar exec actions) := by
  refine ⟨?_, ?_, ?_, ?_⟩
  · intro h
    induction actions with
    | nil => rfl
    | cons a rest ih =>
        have ha := h a (by simp)
        have hcond : (!(actionOutcome exec a).success && a.critical) = false := by
          rcases ha with ha | ha <;> simp [ha]
        simp [execPlanSeq, hcond, ih (fun b hb => h b (by simp [hb]))]
  · intro pre
    induction pre generalizing actions with
    | nil =>
        intro a post heq hpre hfail hcrit
        subst heq
        simp [execPlanSeq, hfail, hcrit]
    | cons b pre' ih =>
        intro a post heq hpre hfail hcrit
        subst heq
        have hb := hpre b (by simp)
        have hcond : (!(actionOutcome exec b).success && b.critical) = false := by
          rcases hb with hb | hb <;> simp [hb]
        have hrec := ih (pre' ++ a :: post) a post rfl
          (fun c hc => hpre c (by simp [hc])) hfail hcrit
        simp only [List.cons_append, execPlanSeq, hcond, Bool.false_eq_true,
          if_false, List.append_eq, List.map_cons] at hrec ⊢
        rw [hrec]
  · exact execPlanPar_length exec actions
  · intro a ha hdep
    unfold execPlanPar
    refine List.mem_append_left _ ?_
    exact List.mem_map_of_mem _ (List.mem_filter.2 ⟨ha, by simp [hdep]⟩)

/-- Witness for C7: on a concrete plan whose middle action is critical
and failing, sequential execution returns exactly the first two
results, while parallel execution still contains the sibling's result
and covers all three actions. -/
theorem plan_execution_protocol_witness :
    execPlanSeq failCriticalExec demoPlan =
      ([backAction, criticalBackAction]).map (actionOutcome failCriticalExec) ∧
      (execPlanPar failCriticalExec demoPlan).length = 3 ∧
      actionOutcome failCriticalExec backAction ∈
        execPlanPar failCriticalExec demoPlan := by
  refine ⟨?_, ?_, ?_⟩
  · exact (plan_execution_protocol failCriticalExec demoPlan).2.1
      [backAction] criticalBackAction [backAction] rfl (by decide)
      (by decide) (by decide)
  · exact (plan_execution_protocol failCriticalExec demoPlan).2.2.1
  · exact (plan_execution_protocol failCriticalExec demoPlan).2.2.2
      backAction (by decide) (by decide)

theorem reflectStep_fields (st : LoopState) (pr : Action × ExecutionResult) :
    (reflectStep st pr).status = st.status ∧
      (reflectStep st pr).current_step = st.current_step ∧
      (reflectStep st pr).max_steps = st.max_steps ∧
      (reflectStep st pr).retry_count = st.retry_count ∧
      (reflectStep st pr).backoff_log = st.backoff_log := by
  unfold reflectStep
  split <;> simp

theorem applyReflections_fields (plan : List Action)
    (results : List ExecutionResult) : ∀ s : LoopState,
    (applyReflections s plan results).status = s.status ∧
      (applyReflections s plan results).current_step = s.current_step ∧
      (applyReflections s plan results).max_steps = s.max_steps ∧
      (applyReflections s plan results).retry_count = s.retry_count ∧
      (applyReflections s plan results).backoff_log = s.backoff_log := by
  unfold applyReflections
  generalize plan.zip results = l
  induction l with
  | nil => intro s; exact ⟨rfl, rfl, rfl, rfl, rfl⟩
  | cons pr l ih =>
      intro s
      simp only [List.foldl_cons]
      obtain ⟨a1, a2, a3, a4, a5⟩ := reflectStep_fields s pr
      obtain ⟨b1, b2, b3, b4, b5⟩ := ih (reflectStep s pr)
      exact ⟨b1.trans a1, b2.trans a2, b3.trans a3, b4.trans a4, b5.trans a5⟩

theorem iterBody_counters (p : Bool) (s : LoopState) (e : StepEvent) :
    s.current_step ≤ (iterBody p s e).current_step ∧
      (iterBody p s e).current_step ≤ s.current_step + 1 ∧
      (iterBody p s e).max_steps = s.max_steps := by
  cases e with
  | stopSignal => simp [iterBody]
  | obsFail err =>
      simp only [iterBody, recoverableUpdate]
      split <;> simp
  | unhandled err => simp [iterBody]
  | skillStep acts exec => simp [iterBody, advanceStep]
  | reasonStep plan exec =>
      simp only [iterBody]
      split
      · simp
      · obtain ⟨-, h2, h3, -, -⟩ :=
          applyReflections_fields plan (execPlan p exec plan) s
        simp [advanceStep, h2, h3]

theorem runLoop_counters (p : Bool) : ∀ (es : List StepEvent) (s : LoopState),
    s.current_step ≤ (runLoop p es s).current_step ∧
      (runLoop p es s).max_steps = s.max_steps ∧
      (runLoop p es s).current_step ≤ max s.current_step s.max_steps := by
  intro es
  induction es with
  | nil => intro s; exact ⟨le_refl _, rfl, le_max_left _ _⟩
  | cons e es ih =>
      intro s
      unfold runLoop
      by_cases hrun : s.status = .RUNNING
      · rw [if_pos hrun]
        by_cases hstop : e.isStop = true
        · rw [if_pos hstop]; exact ⟨le_refl _, rfl, le_max_left _ _⟩
        · rw [if_neg hstop]
          by_cases hms : s.max_steps ≤ s.current_step
          · rw [if_pos hms]; exact ⟨le_refl _, rfl, le_max_left _ _⟩
          · rw [if_neg hms]
            obtain ⟨i1, i2, i3⟩ := iterBody_counters p s e
            obtain ⟨l1, l2, l3⟩ := ih (iterBody p s e)
            refine ⟨i1.trans l1, l2.trans i3, ?_⟩
            rw [i3] at l3
            omega
      · rw [if_neg hrun]
        exact ⟨le_refl _, rfl, le_max_left _ _⟩

theorem isStop_eq_false {e : StepEvent} (h : e ≠ StepEvent.stopSignal) :
    e.isStop = false := by
  cases e with
  | stopSignal => exact absurd rfl h
  | obsFail err => rfl
  | unhandled err => rfl
  | skillStep acts exec => rfl
  | reasonStep plan exec => rfl

/-- Claim C4: across any sequence of loop iterations the step counter is
monotonically non-decreasing, the step budget is never exceeded (for a
mission started within its budget), and a running mission whose counter
has reached the budget is completed by the next loop iteration. -/
theorem step_counter_invariants (parallel : Bool) (es : List StepEvent)
    (s : LoopState) :
    s.current_step ≤ (runLoop parallel es s).current_step ∧
      (runLoop parallel es s).max_steps = s.max_steps ∧
      (s.current_step ≤ s.max_steps →
        (runLoop parallel es s).current_step ≤ s.max_steps) ∧
      (∀ (e : StepEvent) (es' : List StepEvent), s.status = .RUNNING →
        s.max_steps ≤ s.current_step → e ≠ StepEvent.stopSignal →
        (runLoop parallel (e :: es') s).status = .COMPLETED) := by
  obtain ⟨h1, h2, h3⟩ := runLoop_counters parallel es s
  refine ⟨h1, h2, ?_, ?_⟩
  · intro hle
    calc (runLoop parallel es s).current_step
        ≤ max s.current_step s.max_steps := h3
      _ = s.max_steps := max_eq_right hle
  · intro e es' hrun hms hstop
    unfold runLoop
    rw [if_pos hrun, if_neg (by simp [isStop_eq_false hstop]), if_pos hms]

/-- Witness for C4: a running mission with `current_step = max_steps = 2`
is completed on the next iteration, and the step counter stays within
the budget. -/
theorem step_counter_invariants_witness :
    (runLoop false [] budgetState).current_step ≤ budgetState.max_steps ∧
      (runLoop false
        [StepEvent.reasonStep [getUiAction] okExec] budgetState).status =
        .COMPLETED :=
  ⟨(step_counter_invariants false [] budgetState).2.2.1 (by decide),
   (step_counter_invariants false [] budgetState).2.2.2
     (.reasonStep [getUiAction] okExec) [] rfl (by decide)
     (fun h => StepEvent.noConfusion h)⟩

/-- Claim C3 (amended): an observation failure — the only error the loop
classifies as recoverable — triggers a backoff sleep of
`2 ^ retry_count` seconds and a retry of the same step, capped at 3
retries; a fourth consecutive failure (after backoffs 2, 4, 8)
transitions the mission to Failed; and a step that completes (with the
reasoning path taken) resets the retry counter to 0 and advances the
step, regardless of whether its capability executions produced failed
ExecutionResults — a failed ExecutionResult during plan execution does
not trigger the retry path, which is the amendment. -/
theorem retry_backoff_amended (parallel : Bool) :
    (∀ (s : LoopState) (err : String), s.status = .RUNNING →
       s.current_step < s.max_steps → s.retry_count < 3 →
       runLoop parallel [.obsFail err] s =
         { s with retry_count := s.retry_count + 1,
                  backoff_log := s.backoff_log ++ [2 ^ (s.retry_count + 1)] }) ∧
    (∀ (s : LoopState) (err : String), s.status = .RUNNING →
       s.current_step < s.max_steps → s.retry_count = 3 →
       runLoop parallel [.obsFail err] s =
         { s with retry_count := 4, status := .FAILED }) ∧
    (∀ (s : LoopState) (e1 e2 e3 e4 : String), s.status = .RUNNING →
       s.current_step < s.max_steps → s.retry_count = 0 →
       runLoop parallel
           [.obsFail e1, .obsFail e2, .obsFail e3, .obsFail e4] s =
         { s with retry_count := 4, status := .FAILED,
                  backoff_log := s.backoff_log ++ [2, 4, 8] }) ∧
    (∀ (s : LoopState) (plan : List Action) (exec : Action → ExecutionResult),
       s.status = .RUNNING → s.current_step < s.max_steps → plan ≠ [] →
       (runLoop parallel [.reasonStep plan exec] s).retry_count = 0 ∧
         (runLoop parallel [.reasonStep plan exec] s).current_step =
           s.current_step + 1 ∧
         (runLoop parallel [.reasonStep plan exec] s).backoff_log =
           s.backoff_log ∧
         (runLoop parallel [.reasonStep plan exec] s).status = .RUNNING) := by
  refine ⟨?_, ?_, ?_, ?_⟩
  · intro s err hrun hlt hrc
    have hnle : ¬ s.max_steps ≤ s.current_step := not_le.mpr hlt
    have hnlt : ¬ 3 < s.retry_count + 1 := by omega
    simp [runLoop, StepEvent.isStop, iterBody, recoverableUpdate, hrun, hnle, hnlt]
  · intro s err hrun hlt hrc
    have hnle : ¬ s.max_steps ≤ s.current_step := not_le.mpr hlt
    simp [runLoop, StepEvent.isStop, iterBody, recoverableUpdate, hrun, hnle, hrc]
  · intro s e1 e2 e3 e4 hrun hlt hrc
    have hnle : ¬ s.max_steps ≤ s.current_step := not_le.mpr hlt
    norm_num [runLoop, StepEvent.isStop, iterBody, recoverableUpdate, hrun, hnle, hrc]
  · intro s plan exec hrun hlt hplan
    have hnle : ¬ s.max_steps ≤ s.current_step := not_le.mpr hlt
    obtain ⟨a1, a2, a3, a4, a5⟩ :=
      applyReflections_fields plan (execPlan parallel exec plan) s
    simp [runLoop, StepEvent.isStop, iterBody, advanceStep, hrun, hnle, hplan, a1, a2, a5]

/-- Witness for C3 (amended): from a fresh running state, four
consecutive observation failures fail the mission after backoffs
2, 4, 8, and a completed reasoning step resets the retry counter. -/
theorem retry_backoff_amended_witness :
    runLoop false
        [.obsFail "x", .obsFail "x", .obsFail "x", .obsFail "x"] freshState =
      { freshState with retry_count := 4, status := .FAILED,
                        backoff_log := [2, 4, 8] } ∧
      (runLoop false [.reasonStep [backAction] okExec] freshState).retry_count
        = 0 := by
  constructor
  · exact ((retry_backoff_amended false).2.2.1 freshState "x" "x" "x" "x" rfl
      (by decide) rfl).trans (by decide)
  · exact ((retry_backoff_amended false).2.2.2 freshState [backAction] okExec
      rfl (by decide) (by decide)).1

/-- Counterexample to C3 as stated: a step whose only capability
execution surfaces a failed ExecutionResult does not retry the same
step with backoff — the loop records the error into working memory,
resets the retry counter, performs no backoff sleep, and advances the
step counter from 0 to 1. -/
theorem failed_result_does_not_retry_counterexample :
    runLoop false [.reasonStep [backAction] failExec] freshState =
      { freshState with
        current_step := 1,
        last_action_error := some "Action back failed: tap failed" } ∧
      (execPlan false failExec [backAction]).all (fun r => !r.success) = true ∧
      (1 : Nat) ≠ (0 : Nat) := by
  refine ⟨by decide, by decide, by decide⟩

/-- Claim C10: whenever the run loop exits with a status other than
Failed — in particular after an external stop request interrupts a
running mission — `_complete_mission` marks the mission Completed; the
final status after a full run is always Completed or Failed, so a
stopped mission is never left Running and never marked Paused. -/
theorem mission_finalization (parallel : Bool) (es : List StepEvent)
    (s : LoopState) :
    ((runLoop parallel es s).status ≠ .FAILED →
       (runMission parallel es s).status = .COMPLETED) ∧
      ((runMission parallel es s).status = .COMPLETED ∨
        (runMission parallel es s).status = .FAILED) ∧
      (s.status = .RUNNING →
        (runMission parallel (.stopSignal :: es) s).status = .COMPLETED) := by
  refine ⟨?_, ?_, ?_⟩
  · intro h
    unfold runMission completeMission
    rw [if_neg h]
  · unfold runMission completeMission
    by_cases h : (runLoop parallel es s).status = .FAILED
    · rw [if_pos h]; exact Or.inr h
    · rw [if_neg h]; exact Or.inl rfl
  · intro hrun
    have hstop : runLoop parallel (.stopSignal :: es) s = s := by
      unfold runLoop
      rw [if_pos hrun,
        if_pos (show StepEvent.stopSignal.isStop = true from rfl)]
    unfold runMission
    rw [hstop]
    unfold completeMission
    rw [if_neg (by simp [hrun])]

/-- Witness for C10: stopping a fresh running mission yields final
status Completed. -/
theorem mission_finalization_witness :
    (runMission false [StepEvent.stopSignal] freshState).status =
      .COMPLETED :=
  (mission_finalization false [] freshState).2.2 rfl

theorem insertDesc_perm {α β : Type} [LinearOrder β] (key : α → β) (a : α) :
    ∀ l : List α, (insertDesc key a l).Perm (a :: l) := by
  intro l
  induction l with
  | nil => exact List.Perm.refl _
  | cons b l ih =>
      unfold insertDesc
      by_cases h : key a < key b
      · rw [if_pos h]
        exact (ih.cons b).trans (List.Perm.swap a b l)
      · rw [if_neg h]

theorem sortDesc_perm {α β : Type} [LinearOrder β] (key : α → β) :
    ∀ l : List α, (sortDesc key l).Perm l := by
  intro l
  induction l with
  | nil => exact List.Perm.refl _
  | cons a l ih =>
      exact (insertDesc_perm key a (sortDesc key l)).trans (ih.cons a)

theorem insertDesc_pairwise {α β : Type} [LinearOrder β] (key : α → β)
    (a : α) : ∀ l : List α, l.Pairwise (fun x y => key y ≤ key x) →
    (insertDesc key a l).Pairwise (fun x y => key y ≤ key x) := by
  intro l
  induction l with
  | nil => intro _; exact List.pairwise_singleton _ a
  | cons b l ih =>
      intro hl
      rw [List.pairwise_cons] at hl
      unfold insertDesc
      by_cases h : key a < key b
      · rw [if_pos h]
        rw [List.pairwise_cons]
        constructor
        · intro x hx
          rcases ((insertDesc_perm key a l).mem_iff).1 hx with hx'
          rcases List.mem_cons.1 hx' with rfl | hx''
          · exact le_of_lt h
          · exact hl.1 x hx''
        · exact ih hl.2
      · rw [if_neg h]
        rw [List.pairwise_cons]
        constructor
        · intro x hx
          rcases List.mem_cons.1 hx with rfl | hx'
          · exact le_of_not_lt h
          · exact le_trans (hl.1 x hx') (le_of_not_lt h)
        · exact List.pairwise_cons.2 hl

theorem sortDesc_pairwise {α β : Type} [LinearOrder β] (key : α → β) :
    ∀ l : List α, (sortDesc key l).Pairwise (fun x y => key y ≤ key x) := by
  intro l
  induction l with
  | nil => exact List.Pairwise.nil
  | cons a l ih => exact insertDesc_pairwise key a (sortDesc key l) ih

theorem insertDesc_filter_key {α β : Type} [LinearOrder β] (key : α → β)
    (v : β) (a : α) : ∀ l : List α,
    (insertDesc key a l).filter (fun x => decide (key x = v)) =
      if key a = v then a :: l.filter (fun x => decide (key x = v))
      else l.filter (fun x => decide (key x = v)) := by
  intro l
  induction l with
  | nil =>
      by_cases h : key a = v
      · simp [insertDesc, List.filter_cons, h]
      · simp [insertDesc, List.filter_cons, h]
  | cons b l ih =>
      unfold insertDesc
      by_cases h : key a < key b
      · rw [if_pos h]
        by_cases hav : key a = v
        · have hbv : ¬ key b = v := by
            intro hb
            rw [hav] at h
            rw [hb] at h
            exact lt_irrefl v h
          simp [List.filter_cons, hbv, ih, hav]
        · simp [List.filter_cons, ih, hav]
      · rw [if_neg h]
        by_cases hav : key a = v
        · simp [List.filter_cons, hav]
        · simp [List.filter_cons, hav]

theorem sortDesc_filter_key {α β : Type} [LinearOrder β] (key : α → β)
    (v : β) : ∀ l : List α,
    (sortDesc key l).filter (fun x => decide (key x = v)) =
      l.filter (fun x => decide (key x = v)) := by
  intro l
  induction l with
  | nil => rfl
  | cons a l ih =>
      show (insertDesc key a (sortDesc key l)).filter _ = _
      rw [insertDesc_filter_key key v a (sortDesc key l)]
      by_cases h : key a = v
      · rw [if_pos h, ih, List.filter_cons]
        simp [h]
      · rw [if_neg h, ih, List.filter_cons]
        simp [h]

theorem insertAsc_perm {α β : Type} [LinearOrder β] (key : α → β) (a : α) :
    ∀ l : List α, (insertAsc key a l).Perm (a :: l) := by
  intro l
  induction l with
  | nil => exact List.Perm.refl _
  | cons b l ih =>
      unfold insertAsc
      by_cases h : key b < key a
      · rw [if_pos h]
        exact (ih.cons b).trans (List.Perm.swap a b l)
      · rw [if_neg h]

theorem sortAsc_perm {α β : Type} [LinearOrder β] (key : α → β) :
    ∀ l : List α, (sortAsc key l).Perm l := by
  intro l
  induction l with
  | nil => exact List.Perm.refl _
  | cons a l ih =>
      exact (insertAsc_perm key a (sortAsc key l)).trans (ih.cons a)

theorem insertAsc_pairwise {α β : Type} [LinearOrder β] (key : α → β)
    (a : α) : ∀ l : List α, l.Pairwise (fun x y => key x ≤ key y) →
    (insertAsc key a l).Pairwise (fun x y => key x ≤ key y) := by
  intro l
  induction l with
  | nil => intro _; exact List.pairwise_singleton _ a
  | cons b l ih =>
      intro hl
      rw [List.pairwise_cons] at hl
      unfold insertAsc
      by_cases h : key b < key a
      · rw [if_pos h]
        rw [List.pairwise_cons]
        constructor
        · intro x hx
          rcases ((insertAsc_perm key a l).mem_iff).1 hx with hx'
          rcases List.mem_cons.1 hx' with rfl | hx''
          · exact le_of_lt h
          · exact hl.1 x hx''
        · exact ih hl.2
      · rw [if_neg h]
        rw [List.pairwise_cons]
        constructor
        · intro x hx
          rcases List.mem_cons.1 hx with rfl | hx'
          · exact le_of_not_lt h
          · exact le_trans (le_of_not_lt h) (hl.1 x hx')
        · exact List.pairwise_cons.2 hl

theorem sortAsc_pairwise {α β : Type} [LinearOrder β] (key : α → β) :
    ∀ l : List α, (sortAsc key l).Pairwise (fun x y => key x ≤ key y) := by
  intro l
  induction l with
  | nil => exact List.Pairwise.nil
  | cons a l ih => exact insertAsc_pairwise key a (sortAsc key l) ih

theorem retrieveFallback_length_le {α : Type} [LinearOrder α]
    (sim : Memory → α) (k : Nat) (mems : List Memory) :
    (retrieveFallback sim k mems).length ≤ k := by
  unfold retrieveFallback
  simp only [List.length_map]
  exact List.length_take_le k _

theorem retrieveTfidf_length_le (sims : List ℚ) (k : Nat)
    (mems : List Memory) : (retrieveTfidf sims k mems).length ≤ k := by
  unfold retrieveTfidf
  refine le_trans (List.length_filterMap_le _ _) ?_
  unfold tfidfOrder
  exact le_trans (List.length_filter_le _ _) (List.length_take_le _ _)

theorem retrieveFallback_pairwise {α : Type} [LinearOrder α]
    (sim : Memory → α) (k : Nat) (mems : List Memory) :
    (retrieveFallback sim k mems).Pairwise (fun a b => sim b ≤ sim a) := by
  unfold retrieveFallback
  rw [List.pairwise_map]
  have hsorted :=
    sortDesc_pairwise (fun p : α × Memory => p.1)
      (mems.map (fun m => (sim m, m)))
  have htake :=
    List.Pairwise.sublist (List.take_sublist k _) hsorted
  refine htake.imp_of_mem ?_
  intro p q hp hq hpq
  have hmem : ∀ x : α × Memory,
      x ∈ List.take k (sortDesc (fun p : α × Memory => p.1)
        (mems.map (fun m => (sim m, m)))) → x.1 = sim x.2 := by
    intro x hx
    have hx' :=
      ((sortDesc_perm (fun p : α × Memory => p.1) _).mem_iff).1
        (List.mem_of_mem_take hx)
    rcases List.mem_map.1 hx' with ⟨m, hm, rfl⟩
    rfl
  have hp' := hmem p hp
  have hq' := hmem q hq
  calc sim q.2 = q.1 := (hq').symm
    _ ≤ p.1 := hpq
    _ = sim p.2 := hp'

theorem retrieveFallback_ties {α : Type} [LinearOrder α]
    (sim : Memory → α) (k : Nat) (mems : List Memory) (v : α) :
    ((retrieveFallback sim k mems).filter
        (fun m => decide (sim m = v))).Sublist
      (mems.filter (fun m => decide (sim m = v))) := by
  unfold retrieveFallback
  rw [List.filter_map]
  have hcong : (List.take k (sortDesc (fun p : α × Memory => p.1)
        (mems.map (fun m => (sim m, m))))).filter
        ((fun m => decide (sim m = v)) ∘ Prod.snd) =
      (List.take k (sortDesc (fun p : α × Memory => p.1)
        (mems.map (fun m => (sim m, m))))).filter
        (fun p => decide (p.1 = v)) := by
    apply List.filter_congr
    intro p hp
    have hmem :=
      ((sortDesc_perm (fun p : α × Memory => p.1) _).mem_iff).1
        (List.mem_of_mem_take hp)
    rcases List.mem_map.1 hmem with ⟨m, hm, rfl⟩
    rfl
  rw [hcong]
  have hsub : ((List.take k (sortDesc (fun p : α × Memory => p.1)
        (mems.map (fun m => (sim m, m))))).filter
        (fun p => decide (p.1 = v))).Sublist
      ((mems.map (fun m => (sim m, m))).filter
        (fun p => decide (p.1 = v))) := by
    have h1 := (List.take_sublist k (sortDesc (fun p : α × Memory => p.1)
      (mems.map (fun m => (sim m, m))))).filter (fun p => decide (p.1 = v))
    have h2 := sortDesc_filter_key (fun p : α × Memory => p.1) v
      (mems.map (fun m => (sim m, m)))
    rw [h2] at h1
    exact h1
  have hmap := hsub.map Prod.snd
  have hrhs : ((mems.map (fun m => (sim m, m))).filter
        (fun p => decide (p.1 = v))).map Prod.snd =
      mems.filter (fun m => decide (sim m = v)) := by
    rw [List.filter_map, List.map_map]
    have h3 : ((fun p : α × Memory => decide (p.1 = v)) ∘
        (fun m => ((sim m, m) : α × Memory))) =
        fun m => decide (sim m = v) := rfl
    rw [h3]
    have h4 : (Prod.snd ∘ fun m => ((sim m, m) : α × Memory)) = id := rfl
    rw [h4, List.map_id]
  rw [hrhs] at hmap
  exact hmap

theorem tfidfOrder_pairwise (sims : List ℚ) (k : Nat) :
    (tfidfOrder sims k).Pairwise
      (fun i j => sims.getD j 0 ≤ sims.getD i 0) := by
  unfold tfidfOrder argsortAsc
  have hsorted := sortAsc_pairwise (fun p : Nat × ℚ => p.2) sims.enum
  have hgood : (sortAsc (fun p : Nat × ℚ => p.2) sims.enum).Pairwise
      (fun p q => sims.getD p.1 0 ≤ sims.getD q.1 0) := by
    refine hsorted.imp_of_mem ?_
    intro p q hp hq hpq
    have hp' : sims.getD p.1 0 = p.2 := by
      have h := List.mem_enum_iff_getElem?.1
        (((sortAsc_perm (fun p : Nat × ℚ => p.2) sims.enum).mem_iff).1 hp)
      rw [List.getD_eq_getElem?_getD, h]
      rfl
    have hq' : sims.getD q.1 0 = q.2 := by
      have h := List.mem_enum_iff_getElem?.1
        (((sortAsc_perm (fun p : Nat × ℚ => p.2) sims.enum).mem_iff).1 hq)
      rw [List.getD_eq_getElem?_getD, h]
      rfl
    rw [hp', hq']
    exact hpq
  have hmap : ((sortAsc (fun p : Nat × ℚ => p.2) sims.enum).map
      Prod.fst).Pairwise (fun i j => sims.getD i 0 ≤ sims.getD j 0) :=
    List.pairwise_map.2 hgood
  have hrev := List.pairwise_reverse.2 hmap
  exact List.Pairwise.sublist (List.filter_sublist _)
    (List.Pairwise.sublist (List.take_sublist _ _) hrev)

/-- Claim C8 (amended): `retrieve` never returns more than `top_k`
memories in either strategy, and results are ordered by descending
similarity; equal-similarity ties are returned in original insertion
order in the hash-fallback strategy (Python's stable sort), but the
TF-IDF strategy ranks by reversing an ascending argsort, so its ties
come out in reverse insertion order rather than insertion order — that
is the amendment.  Tie order for the fallback is stated as: the results
carrying any fixed similarity value form a sublist of the corpus in
insertion order. -/
theorem retrieve_order_amended {α : Type} [LinearOrder α]
    (sim : Memory → α) (tfidf : Option (List ℚ)) (top_k : Nat)
    (memories : List Memory) (sims : List ℚ) (v : α) :
    (MemoryStore.retrieve tfidf sim top_k memories).length ≤ top_k ∧
      (retrieveFallback sim top_k memories).Pairwise
        (fun a b => sim b ≤ sim a) ∧
      ((retrieveFallback sim top_k memories).filter
          (fun m => decide (sim m = v))).Sublist
        (memories.filter (fun m => decide (sim m = v))) ∧
      (tfidfOrder sims top_k).Pairwise
        (fun i j => sims.getD j 0 ≤ sims.getD i 0) := by
  refine ⟨?_, retrieveFallback_pairwise sim top_k memories,
    retrieveFallback_ties sim top_k memories v,
    tfidfOrder_pairwise sims top_k⟩
  unfold MemoryStore.retrieve
  by_cases hemp : memories.length = 0
  · simp [hemp]
  · rw [if_neg hemp]
    cases tfidf with
    | none => exact retrieveFallback_length_le sim top_k memories
    | some s =>
        show (if 1 < memories.length then retrieveTfidf s top_k memories
          else retrieveFallback sim top_k memories).length ≤ top_k
        by_cases hlen : 1 < memories.length
        · rw [if_pos hlen]
          exact retrieveTfidf_length_le s top_k memories
        · rw [if_neg hlen]
          exact retrieveFallback_length_le sim top_k memories

/-- Counterexample to C8 as stated: two memories tied at similarity 1
are returned by the TF-IDF strategy in reverse insertion order
`[memB, memA]`, not insertion order `[memA, memB]`. -/
theorem tfidf_tie_order_counterexample :
    MemoryStore.retrieve (some [1, 1]) (fun _ => (0 : ℚ)) 2 [memA, memB] =
        [memB, memA] ∧
      memA ≠ memB := by
  refine ⟨by decide, by decide⟩

theorem dotQ_cons (x y : ℚ) (xs ys : List ℚ) :
    dotQ (x :: xs) (y :: ys) = x * y + dotQ xs ys := by
  simp [dotQ]

theorem dotQ_nil_right (a : List ℚ) : dotQ a [] = 0 := by
  cases a <;> simp [dotQ]

theorem sumSq_cons (x : ℚ) (xs : List ℚ) :
    sumSq (x :: xs) = x * x + sumSq xs := by
  simp [sumSq]

theorem sumSq_nonneg (a : List ℚ) : 0 ≤ sumSq a := by
  apply List.sum_nonneg
  intro x hx
  rcases List.mem_map.1 hx with ⟨y, hy, rfl⟩
  exact mul_self_nonneg y

theorem dotQ_self (a : List ℚ) : dotQ a a = sumSq a := by
  induction a with
  | nil => rfl
  | cons x xs ih => rw [dotQ_cons, sumSq_cons, ih]

theorem dotQ_eq_zero (a : List ℚ) (hS : sumSq a = 0) :
    ∀ b : List ℚ, dotQ a b = 0 := by
  induction a with
  | nil => intro b; rfl
  | cons x xs ih =>
      intro b
      rw [sumSq_cons] at hS
      have h1 := mul_self_nonneg x
      have h2 := sumSq_nonneg xs
      have hx : x = 0 := mul_self_eq_zero.1 (by linarith)
      have hxs : sumSq xs = 0 := by linarith
      cases b with
      | nil => exact dotQ_nil_right _
      | cons y ys =>
          rw [dotQ_cons, hx, ih hxs ys]
          ring

theorem listCauchySchwarz : ∀ a b : List ℚ,
    (dotQ a b) ^ 2 ≤ sumSq a * sumSq b := by
  intro a
  induction a with
  | nil =>
      intro b
      have : dotQ [] b = 0 := rfl
      rw [this]
      have : sumSq ([] : List ℚ) = 0 := rfl
      rw [this]
      simp
  | cons x xs ih =>
      intro b
      cases b with
      | nil =>
          rw [dotQ_nil_right]
          have : sumSq ([] : List ℚ) = 0 := rfl
          rw [this]
          simp
      | cons y ys =>
          have h := ih ys
          have hA := sumSq_nonneg xs
          have hB := sumSq_nonneg ys
          rw [dotQ_cons, sumSq_cons, sumSq_cons]
          by_cases hB0 : sumSq ys = 0
          · have hD : dotQ xs ys = 0 := by
              have h' := h
              rw [hB0, mul_zero] at h'
              have := sq_nonneg (dotQ xs ys)
              have hz : (dotQ xs ys) ^ 2 = 0 := le_antisymm h' this
              exact pow_eq_zero_iff (n := 2) (by norm_num) |>.1 hz
            rw [hB0, hD]
            nlinarith [mul_self_nonneg y, hA, sq_nonneg (x * y)]
          · have hBpos : 0 < sumSq ys := lt_of_le_of_ne hB (Ne.symm hB0)
            have key : sumSq ys *
                ((x * x + sumSq xs) * (y * y + sumSq ys) -
                  (x * y + dotQ xs ys) ^ 2) =
                (x * sumSq ys - y * dotQ xs ys) ^ 2 +
                  (y * y + sumSq ys) *
                    (sumSq xs * sumSq ys - (dotQ xs ys) ^ 2) := by
              ring
            nlinarith [key, sq_nonneg (x * sumSq ys - y * dotQ xs ys),
              mul_nonneg (add_nonneg (mul_self_nonneg y) hB)
                (sub_nonneg.2 h), hBpos]

theorem legacyCos_self_one (a : List ℚ) (ha : a ≠ []) (hS : sumSq a ≠ 0) :
    legacyCos a a = 1 := by
  unfold legacyCos
  rw [if_neg (by simp [ha])]
  have hS0 : (0 : ℝ) ≤ ((sumSq a : ℚ) : ℝ) := by
    exact_mod_cast sumSq_nonneg a
  have hmul : Real.sqrt ((sumSq a : ℚ) : ℝ) * Real.sqrt ((sumSq a : ℚ) : ℝ) =
      ((sumSq a : ℚ) : ℝ) := Real.mul_self_sqrt hS0
  have hne : ((sumSq a : ℚ) : ℝ) ≠ 0 := by
    exact_mod_cast hS
  rw [if_neg (by rw [hmul]; exact hne)]
  rw [hmul, dotQ_self]
  exact div_self hne

theorem legacyCos_le_one (a b : List ℚ) : legacyCos a b ≤ 1 := by
  unfold legacyCos
  by_cases hab : a = [] ∨ b = []
  · rw [if_pos hab]; norm_num
  · rw [if_neg hab]
    by_cases hz : Real.sqrt ((sumSq a : ℚ) : ℝ) *
        Real.sqrt ((sumSq b : ℚ) : ℝ) = 0
    · rw [if_pos hz]; norm_num
    · rw [if_neg hz]
      have hpos : 0 < Real.sqrt ((sumSq a : ℚ) : ℝ) *
          Real.sqrt ((sumSq b : ℚ) : ℝ) :=
        lt_of_le_of_ne (mul_nonneg (Real.sqrt_nonneg _) (Real.sqrt_nonneg _))
          (Ne.symm hz)
      rw [div_le_one hpos]
      have hcast : (((dotQ a b) : ℚ) : ℝ) ^ 2 ≤
          ((sumSq a : ℚ) : ℝ) * ((sumSq b : ℚ) : ℝ) := by
        exact_mod_cast listCauchySchwarz a b
      calc (((dotQ a b) : ℚ) : ℝ)
          ≤ |(((dotQ a b) : ℚ) : ℝ)| := le_abs_self _
        _ = Real.sqrt ((((dotQ a b) : ℚ) : ℝ) ^ 2) :=
            (Real.sqrt_sq_eq_abs _).symm
        _ ≤ Real.sqrt (((sumSq a : ℚ) : ℝ) * ((sumSq b : ℚ) : ℝ)) :=
            Real.sqrt_le_sqrt hcast
        _ = Real.sqrt ((sumSq a : ℚ) : ℝ) * Real.sqrt ((sumSq b : ℚ) : ℝ) :=
            Real.sqrt_mul (by exact_mod_cast sumSq_nonneg a) _

theorem legacyCos_zero_left (a b : List ℚ) (hS : sumSq a = 0) :
    legacyCos a b = 0 := by
  unfold legacyCos
  by_cases hab : a = [] ∨ b = []
  · rw [if_pos hab]
  · rw [if_neg hab]
    have hz : Real.sqrt ((sumSq a : ℚ) : ℝ) = 0 := by
      rw [hS]
      simp
    rw [if_pos (by rw [hz, zero_mul])]

theorem legacyCos_nil_left (b : List ℚ) : legacyCos [] b = 0 := by
  unfold legacyCos
  rw [if_pos (Or.inl rfl)]

theorem legacyCos_le_self (a b : List ℚ) : legacyCos a b ≤ legacyCos a a := by
  by_cases ha : a = []
  · subst ha
    rw [legacyCos_nil_left, legacyCos_nil_left]
  · by_cases hS : sumSq a = 0
    · rw [legacyCos_zero_left a b hS, legacyCos_zero_left a a hS]
    · rw [legacyCos_self_one a ha hS]
      exact legacyCos_le_one a b

theorem retrieveFallback_head {α : Type} [LinearOrder α]
    (sim : Memory → α) (k : Nat) (mems : List Memory) (hne : mems ≠ []) :
    ∃ m, (retrieveFallback sim (k + 1) mems).head? = some m ∧
      ∀ m' ∈ mems, sim m' ≤ sim m := by
  have hperm := sortDesc_perm (fun p : α × Memory => p.1)
    (mems.map (fun m => (sim m, m)))
  have hlen : (sortDesc (fun p : α × Memory => p.1)
      (mems.map (fun m => (sim m, m)))).length = mems.length := by
    rw [hperm.length_eq, List.length_map]
  have hne' : sortDesc (fun p : α × Memory => p.1)
      (mems.map (fun m => (sim m, m))) ≠ [] := by
    intro h
    apply hne
    have := hlen
    rw [h] at this
    exact List.length_eq_zero.1 this.symm
  obtain ⟨p, tl, hcons⟩ := List.exists_cons_of_ne_nil hne'
  refine ⟨p.2, ?_, ?_⟩
  · unfold retrieveFallback
    rw [List.head?_map, List.head?_take, if_neg (Nat.succ_ne_zero k), hcons]
    rfl
  · intro m' hm'
    have hmem : (sim m', m') ∈ sortDesc (fun p : α × Memory => p.1)
        (mems.map (fun m => (sim m, m))) :=
      (hperm.mem_iff).2 (List.mem_map_of_mem _ hm')
    have hp1 : p.1 = sim p.2 := by
      have hp : p ∈ sortDesc (fun p : α × Memory => p.1)
          (mems.map (fun m => (sim m, m))) := by
        rw [hcons]; exact List.mem_cons_self p tl
      rcases List.mem_map.1 ((hperm.mem_iff).1 hp) with ⟨m, hm, rfl⟩
      rfl
    rw [hcons] at hmem
    rcases List.mem_cons.1 hmem with heq | htl
    · have : sim m' = p.1 := by rw [← heq]
      rw [this, hp1]
    · have hpw := sortDesc_pairwise (fun p : α × Memory => p.1)
        (mems.map (fun m => (sim m, m)))
      rw [hcons, List.pairwise_cons] at hpw
      have := hpw.1 (sim m', m') htl
      rw [hp1] at this
      exact this

/-- Claim C9 (amended): `store(content, metadata)` followed immediately
by `retrieve(content, k)` with `k ≥ 1` returns the just-stored memory
as the top or tied-top result in the hash-fallback strategy: the head
of the result list exists and its similarity to the query equals the
reflexive similarity of the stored content, which bounds every entry
(Cauchy-Schwarz for the legacy cosine).  The amendment: in the TF-IDF
strategy the property can fail, because zero-similarity hits are
excluded — a content with zero self-similarity under the vectorizer
(no character n-grams, e.g. the empty string) is not returned at all. -/
theorem store_retrieve_top_amended (embed : String → List ℚ)
    (newId content : String) (meta : Params) (prior : List Memory)
    (k : Nat) :
    ∃ m, (MemoryStore.retrieve none
          (fun mem => legacyCos (embed content) mem.embedding) (k + 1)
          (MemoryStore.store embed newId content meta prior)).head? =
        some m ∧
      legacyCos (embed content) m.embedding =
        legacyCos (embed content) (embed content) := by
  have hne : MemoryStore.store embed newId content meta prior ≠ [] := by
    unfold MemoryStore.store
    simp
  have hlen : (MemoryStore.store embed newId content meta prior).length ≠ 0 := by
    intro h
    exact hne (List.length_eq_zero.1 h)
  obtain ⟨m, hhead, hmax⟩ := retrieveFallback_head
    (fun mem => legacyCos (embed content) mem.embedding) k
    (MemoryStore.store embed newId content meta prior) hne
  refine ⟨m, ?_, ?_⟩
  · unfold MemoryStore.retrieve
    rw [if_neg hlen]
    exact hhead
  · have hnew : ({ id := newId,
                   content := content,
                   embedding := embed content,
                   metadata := meta } : Memory) ∈
        MemoryStore.store embed newId content meta prior := by
      unfold MemoryStore.store
      exact List.mem_append_right _ (List.mem_singleton.2 rfl)
    have hge := hmax _ hnew
    have hle : legacyCos (embed content) m.embedding ≤
        legacyCos (embed content) (embed content) :=
      legacyCos_le_self (embed content) m.embedding
    exact le_antisymm hle hge

/-- Counterexample to C9 as stated: in the TF-IDF strategy a just-stored
content whose vectorization is the zero vector (the empty string yields
no character n-grams, so its cosine against every document is 0 — the
similarity row is [0, 0]) is excluded by the strictly-positive
similarity filter, and `retrieve` returns the empty list: the
just-stored memory `memB` is not returned as top or tied-top result.
The store equation exhibits `memB` as the memory just stored for
content "" on corpus `[memA]`. -/
theorem zero_similarity_not_returned_counterexample :
    MemoryStore.retrieve (some [0, 0]) (fun _ => (0 : ℚ)) 1 [memA, memB] =
        ([] : List Memory) ∧
      MemoryStore.store (fun _ => [0]) "b" "" [] [memA] = [memA, memB] := by
  refine ⟨by decide, by decide⟩

end Andromancer
